import Mathlib

/-!
Verification of the negentropy object-storage core against its design notes.

The development shallowly embeds the Rust sources:

* `src/storage.rs` — the `radix_key` delimiter-rollup helper, the error enums
  (`ParserError`, `MemoryError`, `LruError`) and the default
  `put_object_if_not_exists` method of the `Sink` trait;
* `src/storage/sink/memory.rs` — the in-process sink `Memory` backed by a
  map from key name to byte payload;
* `src/storage/memory.rs` — the older `Storage`-trait in-process backend,
  whose `get_object` and `list_objects` differ from the sink;
* `src/storage/cache/lru.rs` — the LRU cache decorator `Lru` (existence
  index + bounded recency-ordered byte cache + wrapped storage);
* the JSON codec of `src/storage/parser_copy.rs`, whose serde_json
  serialization is modelled by an executable JSON printer and parser over a
  JSON value tree.

Rust `HashMap<String, Vec<u8>>` is modelled as an association list with
at most one binding per key (`mapInsert` removes the old binding), and
`HashSet<String>` as a duplicate-free list.  Byte payloads are opaque
(`Bytes := List Nat`).  Functions taking `&mut self` are modelled by
explicit state passing and return the post-call state also when they
return an error, matching the fact that a Rust caller keeps the mutated
receiver when a fallible method fails.
-/

/-- Byte payloads (`Vec<u8>`); the contents are opaque to the storage core. -/
abbrev Bytes := List Nat

/-- The backing map of the in-process backends (`HashMap<String, Vec<u8>>`). -/
abbrev Mem := List (String × Bytes)

/-- `HashMap::get`. -/
def mapGet (m : Mem) (k : String) : Option Bytes :=
  (m.find? (fun p => p.1 == k)).map (fun p => p.2)

/-- `HashMap::insert`: later writes replace the previous binding. -/
def mapInsert (m : Mem) (k : String) (v : Bytes) : Mem :=
  (k, v) :: m.filter (fun p => !(p.1 == k))

/-- `HashMap::contains_key`. -/
def mapContains (m : Mem) (k : String) : Bool :=
  m.any (fun p => p.1 == k)

/-- `HashSet::insert` on the existence index. -/
def setInsert (k : String) (s : List String) : List String :=
  if s.contains k then s else k :: s

/-- `HashSet::contains`. -/
def setContains (s : List String) (k : String) : Bool :=
  s.contains k

/-- `str::split_once` on character lists: the pieces before and after the
first occurrence of the separator, or `none` when the separator is absent. -/
def splitOnce : List Char → Char → Option (List Char × List Char)
  | [], _ => none
  | c :: cs, d =>
    if c = d then some ([], cs)
    else (splitOnce cs d).map (fun p => (c :: p.1, p.2))

/-- `starts_with`: byte prefix in Rust, character prefix here; the two agree
on valid UTF-8 strings. -/
def strStarts (pre s : String) : Bool :=
  pre.toList.isPrefixOf s.toList

/-- `radix_key` from `src/storage.rs`: split the key after the query
characters, emit the whole key when the radical has no delimiter, nothing
when the radical starts with the delimiter, and the rollup
`pre ++ segment ++ "/"` otherwise.  Every caller filters on
`starts_with` first, so the split always happens at the prefix boundary. -/
def radix_key (pre : String) (key : String) : Option String :=
  let radical := key.toList.drop pre.toList.length
  match splitOnce radical '/' with
  | none => some key
  | some (radicalWithoutSuffix, _) =>
    if radicalWithoutSuffix = [] then none
    else some (String.mk (pre.toList ++ radicalWithoutSuffix ++ ['/']))

/-- The per-key step of the inline listing in `Memory::list_objects`
(`src/storage/memory.rs`), which checks `prefix.is_empty()` before the
empty-segment check. -/
def legacyRadix (pre : String) (key : String) : Option String :=
  let radical := key.toList.drop pre.toList.length
  match splitOnce radical '/' with
  | none => some key
  | some (radicalWithoutSuffix, _) =>
    if pre = "" then some (String.mk (radicalWithoutSuffix ++ ['/']))
    else if radicalWithoutSuffix = [] then none
    else some (String.mk (pre.toList ++ radicalWithoutSuffix ++ ['/']))

/-- `ParserError` (`src/storage.rs`): `Serde { internal }`. -/
inductive ParserErrorR where
  | serde (internal : String) : ParserErrorR
deriving Repr, DecidableEq

/-- `Display for ParserError`: `"Can not serde : {internal}"`. -/
def parserErrorToString : ParserErrorR → String
  | .serde internal => "Can not serde : " ++ internal

/-- `MemoryError` (`src/storage.rs`): `Serde(ParserError)`. -/
inductive MemoryErrorR where
  | serde (e : ParserErrorR) : MemoryErrorR
deriving Repr, DecidableEq

/-- `Display for MemoryError`: `"ParseMemory: {err}"`. -/
def memoryErrorToString : MemoryErrorR → String
  | .serde e => "ParseMemory: " ++ parserErrorToString e

/-- `LruError` (`src/storage.rs`), generic over the wrapped sink's error
type: the `Parser` variant and the `From`-injected sink error (`Memory`
or `S3` in the source). -/
inductive LruErrorR (ε : Type) where
  | parser (e : ParserErrorR) : LruErrorR ε
  | sink (e : ε) : LruErrorR ε
deriving Repr, DecidableEq

namespace SinkMemory

/-- `Memory::exists_inner` (`src/storage/sink/memory.rs`). -/
def exists_inner (m : Mem) (key : String) : Bool :=
  mapContains m key

/-- `Memory::put_bytes_inner`. -/
def put_bytes_inner (m : Mem) (key : String) (value : Bytes) : Mem :=
  mapInsert m key value

/-- `Memory::list_objects_inner`: filter on the query characters, apply
`radix_key`, and collect into a set. -/
def list_objects_inner (m : Mem) (pre : String) : Finset String :=
  (((m.map Prod.fst).filter (fun k => strStarts pre k)).filterMap
    (radix_key pre)).toFinset

/-- `Memory::put_object_inner`: serialize, and only on success insert the
bytes; a serialization failure is wrapped as
`MemoryError::from(ParserError::Serde { internal: err.to_string() })` and
the map is left untouched.  The pair carries the post-call state. -/
def put_object_inner {α : Type} (m : Mem) (key : String) (value : α)
    (ser : α → Except MemoryErrorR Bytes) :
    Except MemoryErrorR Unit × Mem :=
  match ser value with
  | .ok res => (.ok (), put_bytes_inner m key res)
  | .error err =>
    (.error (.serde (.serde (memoryErrorToString err))), m)

/-- `Memory::get_object_inner`: absent keys yield `Ok(None)`; present keys
are deserialized.  The receiver is `&self`, so no state is returned. -/
def get_object_inner {ρ : Type} (m : Mem) (key : String)
    (deser : Bytes → Except MemoryErrorR ρ) :
    Except MemoryErrorR (Option ρ) :=
  match mapGet m key with
  | none => .ok none
  | some content => (deser content).map some

/-- The default `put_object_if_not_exists` of the `Sink` trait
(`src/storage.rs`), instantiated at the in-process sink: check
`exists`, short-circuit with `Ok(false)`, otherwise `put_object` then
`Ok(true)`. -/
def put_object_if_not_exists {α : Type} (m : Mem) (key : String) (value : α)
    (ser : α → Except MemoryErrorR Bytes) :
    Except MemoryErrorR Bool × Mem :=
  if exists_inner m key then (.ok false, m)
  else
    match put_object_inner m key value ser with
    | (.ok _, m1) => (.ok true, m1)
    | (.error e, m1) => (.error e, m1)

end SinkMemory

/-- `MemoryError` as used by the older backend in `src/storage/memory.rs`:
`Serde { operation, key, internal }` and `NotExistsObject(name)`. -/
inductive MemoryErrorL where
  | serde (operation : String) (key : String) (internal : String) : MemoryErrorL
  | notExistsObject (name : String) : MemoryErrorL
deriving Repr, DecidableEq

namespace LegacyMemory

/-- `Memory::get_object` (`src/storage/memory.rs`): an absent key is an
error (`NotExistsObject`), a present key is deserialized with parse
failures wrapped as `Serde { operation: "parse_memory_object", .. }`. -/
def get_object {ρ : Type} (m : Mem) (key : String)
    (deser : Bytes → Except String ρ) : Except MemoryErrorL ρ :=
  match mapGet m key with
  | none => .error (.notExistsObject key)
  | some content =>
    match deser content with
    | .ok v => .ok v
    | .error e => .error (.serde "parse_memory_object" key e)

/-- `Memory::list_objects` (`src/storage/memory.rs`): the inline listing
with the `prefix.is_empty()` special case. -/
def list_objects (m : Mem) (pre : String) : Finset String :=
  (((m.map Prod.fst).filter (fun k => strStarts pre k)).filterMap
    (legacyRadix pre)).toFinset

end LegacyMemory

/-- The state of the `Lru` decorator (`src/storage/cache/lru.rs`): the
existence index (`exists: HashSet<String>`), the bounded recency-ordered
byte cache (`cache: LruCache<String, Vec<u8>>`, most recent first, with
capacity `cap`, a `NonZeroUsize` in the source), and the wrapped storage. -/
structure LruState (σ : Type) where
  existsIndex : List String
  cache : List (String × Bytes)
  cap : Nat
  storage : σ
deriving Repr

/-- `LruCache::put`: refresh or insert at the most-recent end, then evict
the least-recently-used entry when the capacity is exceeded. -/
def lruPut (c : List (String × Bytes)) (cap : Nat) (k : String) (v : Bytes) :
    List (String × Bytes) :=
  let rest := c.filter (fun p => !(p.1 == k))
  let rest := if rest.length + 1 > cap then rest.dropLast else rest
  (k, v) :: rest

/-- `LruCache::get`: look the key up and, on a hit, move the entry to the
most-recent end; returns the found payload and the updated cache. -/
def lruGet (c : List (String × Bytes)) (k : String) :
    Option Bytes × List (String × Bytes) :=
  match c.find? (fun p => p.1 == k) with
  | none => (none, c)
  | some p => (some p.2, (k, p.2) :: c.filter (fun q => !(q.1 == k)))

namespace Lru

/-- `Lru::exists_inner`: membership in the existence index only; the
wrapped storage is never consulted. -/
def exists_inner {σ : Type} (s : LruState σ) (key : String) : Bool :=
  setContains s.existsIndex key

/-- `Lru::put_bytes_inner`: insert the payload into the bounded cache and
mark the key in the existence index. -/
def put_bytes_inner {σ : Type} (s : LruState σ) (key : String) (value : Bytes) :
    LruState σ :=
  { s with
    cache := lruPut s.cache s.cap key value
    existsIndex := setInsert key s.existsIndex }

/-- `Lru::put_object` (`CacheCopy for Lru`): serialize through
`put_object_inner` — which already inserts into the bounded cache and the
existence index — and only then write the bytes through to the wrapped
storage with `put_bytes_copy`.  On a storage error the `?` operator
returns the error while the receiver keeps the already-updated cache and
index; the returned state records that. -/
def put_object {α σ ε : Type} (s : LruState σ) (key : String) (value : α)
    (ser : α → Except ParserErrorR Bytes)
    (bput : σ → String → Bytes → Except ε σ) :
    Except (LruErrorR ε) Unit × LruState σ :=
  match ser value with
  | .error e => (.error (.parser e), s)
  | .ok serialize =>
    let s1 := put_bytes_inner s key serialize
    match bput s1.storage key serialize with
    | .error e => (.error (.sink e), s1)
    | .ok st => (.ok (), { s1 with storage := st })

/-- `Lru::get_object` (`CacheCopy for Lru`): when the existence index
holds the key, serve from the bounded cache alone (`cache.get`, then
deserialize), returning `Ok(None)` when the entry was evicted; otherwise
fetch `Option<RETURN>` from the wrapped storage and pass it — the whole
option — to `put_object`, whose serializer for `Option<RETURN>` is
`serOpt`.  `bget` is the storage's `get_object_copy` (`&self`: it does
not change the storage). -/
def get_object {ρ σ ε : Type} (s : LruState σ) (key : String)
    (deser : Bytes → Except ParserErrorR ρ)
    (serOpt : Option ρ → Except ParserErrorR Bytes)
    (bget : σ → String → Except ε (Option ρ))
    (bput : σ → String → Bytes → Except ε σ) :
    Except (LruErrorR ε) (Option ρ) × LruState σ :=
  if exists_inner s key then
    match lruGet s.cache key with
    | (none, c1) => (.ok none, { s with cache := c1 })
    | (some content, c1) =>
      match deser content with
      | .error e => (.error (.parser e), { s with cache := c1 })
      | .ok v => (.ok (some v), { s with cache := c1 })
  else
    match bget s.storage key with
    | .error e => (.error (.sink e), s)
    | .ok object =>
      match put_object s key object serOpt bput with
      | (.error e, s1) => (.error e, s1)
      | (.ok _, s1) => (.ok object, s1)

end Lru

/-- `put_bytes_copy` of the in-process sink as seen by the decorator: an
unconditional insert that never fails (the `mime` argument is ignored by
`Memory::put_bytes_copy`). -/
def memBput (m : Mem) (k : String) (v : Bytes) : Except MemoryErrorR Mem :=
  .ok (SinkMemory.put_bytes_inner m k v)

/-- `get_object_copy` of the in-process sink as seen by the decorator:
`get_object_inner` with the parser's deserializer, its `ParserError`
injected into `MemoryError` by the `?` conversion. -/
def memBget {ρ : Type} (deser : Bytes → Except ParserErrorR ρ) (m : Mem)
    (k : String) : Except MemoryErrorR (Option ρ) :=
  SinkMemory.get_object_inner m k
    (fun bs => (deser bs).mapError MemoryErrorR.serde)

/-!
The JSON codec.  `impl ParserCopy for Json` (`src/storage/parser_copy.rs`)
delegates to `serde_json::to_vec` and `serde_json::from_slice`; the library
is modelled by an executable compact JSON printer and a fueled
recursive-descent JSON reader over a tree of JSON values.  The model works
at the character level: UTF-8 encoding, which `to_vec` applies to the
printed text, is a bijection between strings and their byte encodings and
is left outside the model.
-/

/-- A serde_json value: the data tree both serialization directions pass
through. -/
inductive Jv where
  | null : Jv
  | bool (b : Bool) : Jv
  | num (n : Int) : Jv
  | str (s : List Char) : Jv
  | arr (xs : List Jv) : Jv
  | obj (fs : List (List Char × Jv)) : Jv

/-- ASCII decimal digit test on the code point. -/
def isDig (c : Char) : Bool :=
  decide (48 ≤ c.toNat ∧ c.toNat ≤ 57)

/-- JSON whitespace (space, newline, tab, carriage return). -/
def isWs (c : Char) : Bool :=
  c == ' ' || c == '\n' || c == '\t' || c == '\r'

/-- Drop leading JSON whitespace. -/
def skipWs : List Char → List Char
  | [] => []
  | c :: cs => if isWs c then skipWs cs else c :: cs

/-- Decimal digits of a natural number, most significant first. -/
def printNat (n : Nat) : List Char :=
  if n = 0 then ['0'] else (Nat.digits 10 n).reverse.map Nat.digitChar

/-- serde_json integer output: an optional minus sign and decimal digits. -/
def printInt (n : Int) : List Char :=
  if n < 0 then '-' :: printNat n.natAbs else printNat n.toNat

/-- Value of an ASCII decimal digit. -/
def digVal (c : Char) : Nat := c.toNat - 48

/-- Read a nonempty run of decimal digits as a number; fails on no digit. -/
def parseNumFrom (s : List Char) : Option (Nat × List Char) :=
  let ds := s.takeWhile isDig
  if ds.isEmpty then none
  else some (ds.foldl (fun a c => 10 * a + digVal c) 0, s.dropWhile isDig)

/-- Value of a hexadecimal digit (both cases accepted). -/
def hexVal (c : Char) : Option Nat :=
  if 48 ≤ c.toNat ∧ c.toNat ≤ 57 then some (c.toNat - 48)
  else if 97 ≤ c.toNat ∧ c.toNat ≤ 102 then some (c.toNat - 87)
  else if 65 ≤ c.toNat ∧ c.toNat ≤ 70 then some (c.toNat - 55)
  else none

/-- The string escaping serde_json applies inside a JSON string literal:
quote, backslash and the shorthand control escapes, `\u00XX` for the
remaining control characters, and every other character verbatim. -/
def escChar (c : Char) : List Char :=
  if c = '"' then ['\\', '"']
  else if c = '\\' then ['\\', '\\']
  else if c = '\n' then ['\\', 'n']
  else if c = '\r' then ['\\', 'r']
  else if c = '\t' then ['\\', 't']
  else if c = '\x08' then ['\\', 'b']
  else if c = '\x0c' then ['\\', 'f']
  else if c.toNat < 32 then
    ['\\', 'u', '0', '0', Nat.digitChar (c.toNat / 16), Nat.digitChar (c.toNat % 16)]
  else [c]

/-- Escape every character of a string body. -/
def escStr : List Char → List Char
  | [] => []
  | c :: cs => escChar c ++ escStr cs

/-- Decode a single-character escape after a backslash. -/
def escDecode (c : Char) : Option Char :=
  if c = '"' then some '"'
  else if c = '\\' then some '\\'
  else if c = '/' then some '/'
  else if c = 'n' then some '\n'
  else if c = 'r' then some '\r'
  else if c = 't' then some '\t'
  else if c = 'b' then some '\x08'
  else if c = 'f' then some '\x0c'
  else none

/-- Read a JSON string body up to the closing quote, decoding escapes. -/
def parseStrBody : List Char → Option (List Char × List Char)
  | [] => none
  | c :: rest =>
    if c = '"' then some ([], rest)
    else if c = '\\' then
      match rest with
      | 'u' :: h1 :: h2 :: h3 :: h4 :: rest2 =>
        match hexVal h1, hexVal h2, hexVal h3, hexVal h4 with
        | some n1, some n2, some n3, some n4 =>
          let code := ((n1 * 16 + n2) * 16 + n3) * 16 + n4
          if code < 55296 then
            (parseStrBody rest2).map (fun p => (Char.ofNat code :: p.1, p.2))
          else none
        | _, _, _, _ => none
      | e :: rest2 =>
        match escDecode e with
        | some ch => (parseStrBody rest2).map (fun p => (ch :: p.1, p.2))
        | none => none
      | [] => none
    else (parseStrBody rest).map (fun p => (c :: p.1, p.2))

mutual

/-- Compact JSON output of a value (`serde_json::to_vec` emits no
whitespace). -/
def printJv : Jv → List Char
  | .null => "null".toList
  | .bool true => "true".toList
  | .bool false => "false".toList
  | .num n => printInt n
  | .str s => '"' :: (escStr s ++ ['"'])
  | .arr xs => '[' :: (printElems xs ++ [']'])
  | .obj fs => '{' :: (printMembers fs ++ ['}'])

/-- Comma-separated compact output of array elements. -/
def printElems : List Jv → List Char
  | [] => []
  | [v] => printJv v
  | v :: w :: vs => printJv v ++ ',' :: printElems (w :: vs)

/-- Comma-separated compact output of object members. -/
def printMembers : List (List Char × Jv) → List Char
  | [] => []
  | [(k, v)] => '"' :: (escStr k ++ '"' :: ':' :: printJv v)
  | (k, v) :: fs =>
    ('"' :: (escStr k ++ '"' :: ':' :: printJv v)) ++ ',' :: printMembers fs

end

mutual

/-- Fueled recursive-descent JSON reader for one value. -/
def parseVal : Nat → List Char → Option (Jv × List Char)
  | 0, _ => none
  | f + 1, s =>
    match skipWs s with
    | [] => none
    | c :: r =>
      if isDig c then
        (parseNumFrom (c :: r)).map (fun p => (Jv.num (p.1 : Int), p.2))
      else if c = '-' then
        (parseNumFrom r).map (fun p => (Jv.num (-(p.1 : Int)), p.2))
      else if c = '"' then
        (parseStrBody r).map (fun p => (Jv.str p.1, p.2))
      else if c = '[' then
        if (skipWs r).head? = some ']' then some (.arr [], (skipWs r).tail)
        else (parseElems f (skipWs r)).map (fun p => (Jv.arr p.1, p.2))
      else if c = '{' then
        if (skipWs r).head? = some '}' then some (.obj [], (skipWs r).tail)
        else (parseMembers f (skipWs r)).map (fun p => (Jv.obj p.1, p.2))
      else if c = 'n' then
        match r with
        | 'u' :: 'l' :: 'l' :: r2 => some (.null, r2)
        | _ => none
      else if c = 't' then
        match r with
        | 'r' :: 'u' :: 'e' :: r2 => some (.bool true, r2)
        | _ => none
      else if c = 'f' then
        match r with
        | 'a' :: 'l' :: 's' :: 'e' :: r2 => some (.bool false, r2)
        | _ => none
      else none

/-- Read one array element, then either close the array or continue after
a comma. -/
def parseElems : Nat → List Char → Option (List Jv × List Char)
  | 0, _ => none
  | f + 1, s => do
    let (v, r) ← parseVal f s
    let r1 := skipWs r
    if r1.head? = some ']' then some ([v], r1.tail)
    else if r1.head? = some ',' then do
      let (vs, r2) ← parseElems f r1.tail
      some (v :: vs, r2)
    else none

/-- Read one object member (quoted key, colon, value), then either close
the object or continue after a comma. -/
def parseMembers : Nat → List Char → Option (List (List Char × Jv) × List Char)
  | 0, _ => none
  | f + 1, s =>
    let s1 := skipWs s
    if s1.head? = some '"' then do
      let (k, r) ← parseStrBody s1.tail
      let r1 := skipWs r
      if r1.head? = some ':' then do
        let (v, r2) ← parseVal f r1.tail
        let r3 := skipWs r2
        if r3.head? = some '}' then some ([(k, v)], r3.tail)
        else if r3.head? = some ',' then do
          let (fs, r4) ← parseMembers f r3.tail
          some ((k, v) :: fs, r4)
        else none
      else none
    else none

end

mutual

/-- Fuel sufficient for `parseVal` on this value. -/
def needJv : Jv → Nat
  | .arr xs => 1 + needElems xs
  | .obj fs => 1 + needMembers fs
  | _ => 1

/-- Fuel sufficient for `parseElems` on these elements. -/
def needElems : List Jv → Nat
  | [] => 0
  | v :: vs => 1 + max (needJv v) (needElems vs)

/-- Fuel sufficient for `parseMembers` on these members. -/
def needMembers : List (List Char × Jv) → Nat
  | [] => 0
  | (_, v) :: fs => 1 + max (needJv v) (needMembers fs)

end

/-- `serde_json::to_vec` on a JSON tree: compact printing (total for every
tree, as in the library, whose only failure sources are non-tree Rust
values). -/
def serialize_value (v : Jv) : Except ParserErrorR (List Char) :=
  .ok (printJv v)

/-- `serde_json::from_slice` on text: read one value with fuel bounded by
the input length and require only whitespace after it. -/
def jsonDeserialize (s : List Char) : Option Jv :=
  match parseVal (s.length + 1) s with
  | some (v, r) => if skipWs r = [] then some v else none
  | none => none

/-- `deserialize_value` of `impl ParserCopy for Json`: a reader failure
becomes `ParserError::Serde { internal }`. -/
def deserialize_value (content : List Char) : Except ParserErrorR Jv :=
  match jsonDeserialize content with
  | some v => .ok v
  | none => .error (.serde "invalid json")

/-- The listing step as the design notes word it, for comparison with
`radix_key`: emit the full original name when the remainder after the
query has no delimiter, nothing when the remainder begins with the
delimiter, and otherwise the query plus the segment of the remainder
before its first delimiter plus the delimiter. -/
def radixSpec (pre : String) (key : String) : Option String :=
  let rem := key.toList.drop pre.toList.length
  if rem.contains '/' = false then some key
  else if rem.head? = some '/' then none
  else some (String.mk (pre.toList ++ rem.takeWhile (fun c => !(c == '/')) ++ ['/']))

/-- The stored names of the listing examples in the design notes. -/
def exampleKeys : Mem :=
  [("one", []), ("long/qux", []), ("long/baz", []), ("long/verylong/buz", [])]

/-- A toy serializer for sampling the storage operations: a natural number
becomes a single byte. -/
def natSer (n : Nat) : Except ParserErrorR Bytes := .ok [n]

/-- The matching toy deserializer. -/
def natDeser (b : Bytes) : Except ParserErrorR Nat :=
  match b with
  | [n] => .ok n
  | _ => .error (.serde "bad payload")

/-- The toy serializer lifted to `Option Nat` the way serde_json treats
`Option`: `Some(v)` like `v`, `None` as the four bytes of `null`. -/
def natSerOpt (o : Option Nat) : Except ParserErrorR Bytes :=
  match o with
  | some n => natSer n
  | none => .ok [110, 117, 108, 108]

/-- The toy serializer wrapped in `MemoryError`, as the sink's
`put_object_inner` receives it. -/
def natSerMem (n : Nat) : Except MemoryErrorR Bytes := .ok [n]

/-- A capacity-one decorator over an empty in-process sink. -/
def lru0 : LruState Mem := ⟨[], [], 1, []⟩

/-- The eviction scenario of the design notes on a capacity-one cache:
write `7` under `k1`, then write `8` under the distinct key `k2`, which
evicts `k1` from the bounded cache while both keys stay in the existence
index and in the wrapped sink. -/
def evictScenario : LruState Mem :=
  (Lru.put_object (Lru.put_object lru0 "k1" 7 natSer memBput).2
    "k2" 8 natSer memBput).2

/-- Tails a JSON number may legally run into: anything not starting with
a digit. -/
def tailOk (rest : List Char) : Prop :=
  ∀ c, rest.head? = some c → isDig c = false

/-!
Theorems.  First the delimiter-rollup listing algorithm, then the
in-process sink, the LRU decorator, and finally the JSON codec.
-/

theorem splitOnce_eq_none_iff (l : List Char) (d : Char) :
    splitOnce l d = none ↔ l.contains d = false := by
  induction l with
  | nil => simp [splitOnce]
  | cons c cs ih =>
    by_cases h : c = d
    · subst h; simp [splitOnce]
    · have hbeq : (d == c) = false := beq_eq_false_iff_ne.mpr (fun hx => h hx.symm)
      rw [List.contains_cons, hbeq]
      simp only [splitOnce, if_neg h, Option.map_eq_none', Bool.false_or]
      exact ih

theorem splitOnce_eq_some (l : List Char) (d : Char) (b a : List Char)
    (h : splitOnce l d = some (b, a)) :
    b = l.takeWhile (fun c => !(c == d)) ∧ (b = [] ↔ l.head? = some d) := by
  induction l generalizing b a with
  | nil => simp [splitOnce] at h
  | cons c cs ih =>
    by_cases hc : c = d
    · subst hc
      simp only [splitOnce, if_pos trivial, Option.some.injEq, Prod.mk.injEq] at h
      obtain ⟨hb, _⟩ := h
      subst hb
      refine ⟨?_, by simp⟩
      simp [List.takeWhile_cons]
    · simp only [splitOnce, if_neg hc] at h
      cases hsp : splitOnce cs d with
      | none => rw [hsp] at h; simp at h
      | some p =>
        obtain ⟨b', a'⟩ := p
        rw [hsp] at h
        simp only [Option.map_some', Option.some.injEq, Prod.mk.injEq] at h
        obtain ⟨hb, _⟩ := h
        obtain ⟨ih1, _⟩ := ih b' a' hsp
        have hpred : (!(c == d)) = true := by simp [hc]
        constructor
        · rw [← hb, List.takeWhile_cons, hpred]
          simp [ih1]
        · constructor
          · intro hx
            rw [← hb] at hx
            simp at hx
          · intro hx
            simp only [List.head?_cons, Option.some.injEq] at hx
            exact absurd hx hc

theorem radix_key_eq_radixSpec (pre key : String) :
    radix_key pre key = radixSpec pre key := by
  simp only [radix_key, radixSpec]
  cases hsp : splitOnce (key.toList.drop pre.toList.length) '/' with
  | none =>
    have hcon := (splitOnce_eq_none_iff (key.toList.drop pre.toList.length) '/').mp hsp
    rw [hcon]
    simp
  | some p =>
    obtain ⟨b, a⟩ := p
    obtain ⟨h1, h2⟩ := splitOnce_eq_some _ '/' b a hsp
    have hcon : (key.toList.drop pre.toList.length).contains '/' = true := by
      cases hcontains : (key.toList.drop pre.toList.length).contains '/' with
      | false =>
        exact absurd ((splitOnce_eq_none_iff _ '/').mpr hcontains) (by rw [hsp]; simp)
      | true => rfl
    rw [hcon]
    dsimp only
    by_cases hb : b = []
    · rw [if_pos hb, if_pos (h2.mp hb)]
      simp
    · rw [if_neg hb, if_neg (fun hx => hb (h2.mpr hx)), ← h1]
      simp

theorem mem_list_objects_inner (m : Mem) (pre x : String) :
    x ∈ SinkMemory.list_objects_inner m pre ↔
      ∃ k, k ∈ m.map Prod.fst ∧ strStarts pre k = true ∧ radixSpec pre k = some x := by
  unfold SinkMemory.list_objects_inner
  rw [List.mem_toFinset, List.mem_filterMap]
  constructor
  · rintro ⟨k, hk, hr⟩
    rw [List.mem_filter] at hk
    exact ⟨k, hk.1, hk.2, by rw [← radix_key_eq_radixSpec]; exact hr⟩
  · rintro ⟨k, hk, hs, hr⟩
    exact ⟨k, List.mem_filter.mpr ⟨hk, hs⟩, by rw [radix_key_eq_radixSpec]; exact hr⟩

/-- C4: the delimiter-rollup listing.  For every stored map and query, the
listing holds exactly the names the design notes describe — the full
stored name when the remainder after the query carries no `/`, nothing
when it begins with `/`, and the query plus first segment plus `/`
otherwise — and the four concrete examples of the notes come out as
stated, including the empty result for the query `long` with no trailing
delimiter. -/
theorem list_objects_delimiter_rollup :
    (∀ (m : Mem) (pre x : String),
      x ∈ SinkMemory.list_objects_inner m pre ↔
        ∃ k, k ∈ m.map Prod.fst ∧ strStarts pre k = true ∧ radixSpec pre k = some x)
    ∧ SinkMemory.list_objects_inner exampleKeys "" = {"one", "long/"}
    ∧ SinkMemory.list_objects_inner exampleKeys "long/" =
        {"long/qux", "long/baz", "long/verylong/"}
    ∧ SinkMemory.list_objects_inner exampleKeys "long/verylong/" =
        {"long/verylong/buz"}
    ∧ SinkMemory.list_objects_inner exampleKeys "long" = (∅ : Finset String) :=
  ⟨mem_list_objects_inner, by decide, by decide, by decide, by decide⟩

theorem legacyRadix_eq (pre k : String)
    (h : pre = "" → k.toList.head? ≠ some '/') :
    legacyRadix pre k = radix_key pre k := by
  simp only [legacyRadix, radix_key]
  cases hsp : splitOnce (k.toList.drop pre.toList.length) '/' with
  | none => rfl
  | some p =>
    obtain ⟨b, a⟩ := p
    obtain ⟨h1, h2⟩ := splitOnce_eq_some _ '/' b a hsp
    dsimp only
    by_cases hpre : pre = ""
    · have hdrop : k.toList.drop pre.toList.length = k.toList := by
        subst hpre; rfl
      have hb : b ≠ [] := by
        intro hbe
        exact h hpre (by rw [← hdrop]; exact h2.mp hbe)
      rw [if_pos hpre, if_neg hb]
      subst hpre
      rfl
    · rw [if_neg hpre]

/-- C10 counterexample: under the empty query, the inline listing of the
older backend emits `"/"` for the stored name `"/foo"` while the
`radix_key`-based listing emits nothing, so the two implementations are
not extensionally equal. -/
theorem list_objects_inline_vs_radix_cex :
    LegacyMemory.list_objects [("/foo", [])] "" ≠
      SinkMemory.list_objects_inner [("/foo", [])] ""
    ∧ LegacyMemory.list_objects [("/foo", [])] "" = {"/"}
    ∧ SinkMemory.list_objects_inner [("/foo", [])] "" = (∅ : Finset String) :=
  ⟨by decide, by decide, by decide⟩

/-- C10 amended: the two listings agree on every stored map and query,
except that under the empty query a stored name beginning with the
delimiter `/` makes the inline listing emit `"/"` where the
`radix_key`-based listing emits nothing; with no such name (or a
non-empty query) they are equal. -/
theorem list_objects_impls_agree (m : Mem) (pre : String)
    (h : pre = "" → ∀ k ∈ m.map Prod.fst, k.toList.head? ≠ some '/') :
    LegacyMemory.list_objects m pre = SinkMemory.list_objects_inner m pre := by
  unfold LegacyMemory.list_objects SinkMemory.list_objects_inner
  congr 1
  apply List.filterMap_congr
  intro k hk
  rw [List.mem_filter] at hk
  exact legacyRadix_eq pre k (fun hpre => h hpre k hk.1)

/-- C10 witness: the agreement theorem applied to the example keys under
the empty query. -/
theorem list_objects_impls_agree_witness :
    ("" = "" → ∀ k ∈ (exampleKeys.map Prod.fst), k.toList.head? ≠ some '/')
    ∧ LegacyMemory.list_objects exampleKeys "" =
        SinkMemory.list_objects_inner exampleKeys "" :=
  ⟨by decide, list_objects_impls_agree exampleKeys "" (by decide)⟩

theorem mapGet_eq_none (m : Mem) (k : String) (h : mapContains m k = false) :
    mapGet m k = none := by
  unfold mapGet
  rw [List.find?_eq_none.mpr, Option.map_none']
  intro p hp hbeq
  unfold mapContains at h
  rw [← Bool.not_eq_true, List.any_eq_true] at h
  exact h ⟨p, hp, hbeq⟩

theorem mapContains_put_self (m : Mem) (k : String) (v : Bytes) :
    mapContains (SinkMemory.put_bytes_inner m k v) k = true := by
  simp [SinkMemory.put_bytes_inner, mapInsert, mapContains]

theorem mapGet_put_self (m : Mem) (k : String) (v : Bytes) :
    mapGet (SinkMemory.put_bytes_inner m k v) k = some v := by
  simp [SinkMemory.put_bytes_inner, mapInsert, mapGet, List.find?]

/-- C5 amended: at the sink interface (`sink/memory.rs`) a read of a
never-written key is `Ok(None)` and the read does not mutate (the Rust
receiver is `&self`); the older `Storage` implementation in `memory.rs`,
however, reports the same absence as the error `NotExistsObject(name)`
rather than an absent result. -/
theorem get_object_absent_not_error {ρ : Type} :
    (∀ (m : Mem) (key : String) (deser : Bytes → Except MemoryErrorR ρ),
      mapContains m key = false → SinkMemory.get_object_inner m key deser = .ok none)
    ∧ (∀ (m : Mem) (key : String) (deser : Bytes → Except String ρ),
      mapContains m key = false →
        LegacyMemory.get_object m key deser = .error (.notExistsObject key)) := by
  constructor
  · intro m key deser h
    unfold SinkMemory.get_object_inner
    rw [mapGet_eq_none m key h]
  · intro m key deser h
    unfold LegacyMemory.get_object
    rw [mapGet_eq_none m key h]

/-- C5 witness: the two absence behaviours on an empty backend at key
`one`. -/
theorem get_object_absent_not_error_witness :
    SinkMemory.get_object_inner ([] : Mem) "one"
        (fun _ => (.error (.serde (.serde "x")) : Except MemoryErrorR Nat)) = .ok none
    ∧ LegacyMemory.get_object ([] : Mem) "one"
        (fun _ => (.error "x" : Except String Nat)) = .error (.notExistsObject "one") :=
  ⟨(@get_object_absent_not_error Nat).1 [] "one" _ rfl,
   (@get_object_absent_not_error Nat).2 [] "one" _ rfl⟩

/-- C5 counterexample: the in-process backend of `memory.rs` answers a
read of the never-written key `one` with the error `NotExistsObject`,
not with an absent result. -/
theorem get_object_absent_is_error_in_legacy_cex :
    LegacyMemory.get_object ([] : Mem) "one"
        (fun _ => (.error "x" : Except String Nat)) =
      .error (.notExistsObject "one") := rfl

/-- C6: write-once semantics of the default `put_object_if_not_exists`.
When `exists` reports the key, the call returns `false` and the map is
untouched; otherwise, with a succeeding serialization, the first call
writes and returns `true`, an immediately following call for the same key
returns `false` leaving the map — and so the stored object — unchanged,
which covers every later call since `false` calls do not change state. -/
theorem put_object_if_not_exists_write_once {α : Type}
    (m : Mem) (k : String) (v v2 : α) (bs : Bytes)
    (ser ser2 : α → Except MemoryErrorR Bytes) :
    (mapContains m k = true →
      SinkMemory.put_object_if_not_exists m k v ser = (.ok false, m))
    ∧ (mapContains m k = false → ser v = .ok bs →
      SinkMemory.put_object_if_not_exists m k v ser =
          (.ok true, SinkMemory.put_bytes_inner m k bs)
        ∧ SinkMemory.put_object_if_not_exists
            (SinkMemory.put_bytes_inner m k bs) k v2 ser2 =
          (.ok false, SinkMemory.put_bytes_inner m k bs)
        ∧ mapGet (SinkMemory.put_bytes_inner m k bs) k = some bs) := by
  constructor
  · intro h
    simp [SinkMemory.put_object_if_not_exists, SinkMemory.exists_inner, h]
  · intro h hser
    refine ⟨?_, ?_, mapGet_put_self m k bs⟩
    · simp [SinkMemory.put_object_if_not_exists, SinkMemory.exists_inner, h,
        SinkMemory.put_object_inner, hser]
    · simp [SinkMemory.put_object_if_not_exists, SinkMemory.exists_inner,
        mapContains_put_self]

/-- C6 witness: on an empty backend, the first conditional write of key
`k` returns `true`, the second returns `false` and leaves the stored
byte payload in place. -/
theorem put_object_if_not_exists_write_once_witness :
    SinkMemory.put_object_if_not_exists ([] : Mem) "k" 3 natSerMem =
        (.ok true, SinkMemory.put_bytes_inner [] "k" [3])
    ∧ SinkMemory.put_object_if_not_exists
        (SinkMemory.put_bytes_inner [] "k" [3]) "k" 4 natSerMem =
        (.ok false, SinkMemory.put_bytes_inner [] "k" [3])
    ∧ mapGet (SinkMemory.put_bytes_inner [] "k" [3]) "k" = some [3] :=
  (put_object_if_not_exists_write_once [] "k" 3 4 [3] natSerMem natSerMem).2 rfl rfl

/-- C7: evaluation of the sink's `put_object_inner` under a failing
serializer.  The call leaves the backend contents untouched (no partial
write) but the returned error is `MemoryError::Serde(ParserError::Serde)`
carrying only a re-wrapped message — no operation name and no key name —
and in `parser.rs` the corresponding error construction is `todo!()`,
which panics instead of producing the error at all. -/
theorem put_object_serde_error_shape :
    SinkMemory.put_object_inner [("a", [1])] "k" 3
        (fun _ : Nat =>
          (.error (.serde (.serde "boom")) : Except MemoryErrorR Bytes)) =
      (.error (.serde (.serde "ParseMemory: Can not serde : boom")), [("a", [1])]) := rfl

theorem setContains_setInsert_self (k : String) (s : List String) :
    setContains (setInsert k s) k = true := by
  unfold setInsert setContains
  by_cases h : s.contains k
  · rw [if_pos h]; exact h
  · rw [if_neg h]; simp

theorem lruPut_cons (c : List (String × Bytes)) (cap : Nat) (k : String) (v : Bytes) :
    ∃ rest, lruPut c cap k v = (k, v) :: rest ∧ ∀ p ∈ rest, (p.1 == k) = false := by
  unfold lruPut
  refine ⟨_, rfl, ?_⟩
  intro p hp
  by_cases hlen : (c.filter fun p => !(p.1 == k)).length + 1 > cap
  · rw [if_pos hlen] at hp
    have hmem := List.dropLast_subset _ hp
    have := List.of_mem_filter hmem
    simpa using this
  · rw [if_neg hlen] at hp
    have := List.of_mem_filter hp
    simpa using this

theorem lruGet_cons_self (k : String) (v : Bytes) (rest : List (String × Bytes))
    (hk : ∀ p ∈ rest, (p.1 == k) = false) :
    lruGet ((k, v) :: rest) k = (some v, (k, v) :: rest) := by
  unfold lruGet
  rw [List.find?_cons_of_pos _ (by simp)]
  dsimp only
  have h2 : List.filter (fun q => !q.1 == k) rest = rest :=
    List.filter_eq_self.mpr (fun p hp => by simpa using hk p hp)
  simp [List.filter_cons, h2]

/-- C8: after a `put_object` whose serialization and backend write both
succeed, an immediate `get_object` of the same key answers `Some` of the
written value from the existence index and the bounded cache alone: the
conclusion holds for every backend read and write function whatever —
so no backend operation can have been consulted — and returns the state
unchanged. -/
theorem lru_cache_hit_after_put {α σ ε ε2 : Type}
    (s : LruState σ) (k : String) (v : α) (bs : Bytes)
    (ser : α → Except ParserErrorR Bytes) (deser : Bytes → Except ParserErrorR α)
    (bput : σ → String → Bytes → Except ε σ) (st2 : σ)
    (hser : ser v = .ok bs) (hdeser : deser bs = .ok v)
    (hbput : bput s.storage k bs = .ok st2) :
    (Lru.put_object s k v ser bput).1 = .ok ()
    ∧ ∀ (serOpt : Option α → Except ParserErrorR Bytes)
        (bget : σ → String → Except ε2 (Option α))
        (bput2 : σ → String → Bytes → Except ε2 σ),
        Lru.get_object (Lru.put_object s k v ser bput).2 k deser serOpt bget bput2 =
          (.ok (some v), (Lru.put_object s k v ser bput).2) := by
  have hput : Lru.put_object s k v ser bput =
      (.ok (), { Lru.put_bytes_inner s k bs with storage := st2 }) := by
    unfold Lru.put_object
    rw [hser]
    dsimp only
    rw [show (Lru.put_bytes_inner s k bs).storage = s.storage from rfl, hbput]
  rw [hput]
  refine ⟨rfl, ?_⟩
  intro serOpt bget bput2
  obtain ⟨rest, hrest, hfree⟩ := lruPut_cons s.cache s.cap k bs
  have hcache : ({ Lru.put_bytes_inner s k bs with storage := st2 } : LruState σ).cache =
      (k, bs) :: rest := hrest
  unfold Lru.get_object
  rw [if_pos (by exact setContains_setInsert_self k s.existsIndex)]
  rw [hcache, lruGet_cons_self k bs rest hfree]
  dsimp only
  rw [hdeser]
  dsimp only
  rw [← hcache]

/-- C8 witness: writing `7` under `k` through the capacity-one decorator
over the empty in-process sink, then reading `k` back. -/
theorem lru_cache_hit_after_put_witness :
    (Lru.put_object lru0 "k" 7 natSer memBput).1 = .ok ()
    ∧ Lru.get_object (Lru.put_object lru0 "k" 7 natSer memBput).2 "k"
        natDeser natSerOpt (memBget natDeser) memBput =
        (.ok (some 7), (Lru.put_object lru0 "k" 7 natSer memBput).2) := by
  have h := @lru_cache_hit_after_put Nat Mem MemoryErrorR MemoryErrorR lru0 "k" 7 [7]
    natSer natDeser memBput (SinkMemory.put_bytes_inner [] "k" [7]) rfl rfl rfl
  exact ⟨h.1, h.2 natSerOpt (memBget natDeser) memBput⟩

/-- C2 amended: `put_object` serializes and then inserts into the bounded
cache and the existence index BEFORE the backend write; when the backend
write fails, the error is returned but the decorator keeps the freshly
inserted entry — the cache and index are not restored to their pre-call
contents (only a serialization failure leaves them untouched). -/
theorem lru_put_object_cache_before_backend {α σ ε : Type}
    (s : LruState σ) (k : String) (v : α) (bs : Bytes) (e : ε)
    (ser : α → Except ParserErrorR Bytes)
    (bput : σ → String → Bytes → Except ε σ)
    (hser : ser v = .ok bs) (hbput : bput s.storage k bs = .error e) :
    Lru.put_object s k v ser bput = (.error (.sink e), Lru.put_bytes_inner s k bs)
    ∧ Lru.exists_inner (Lru.put_bytes_inner s k bs) k = true
    ∧ (Lru.put_bytes_inner s k bs).cache = lruPut s.cache s.cap k bs := by
  refine ⟨?_, setContains_setInsert_self k s.existsIndex, rfl⟩
  unfold Lru.put_object
  rw [hser]
  dsimp only
  rw [show (Lru.put_bytes_inner s k bs).storage = s.storage from rfl, hbput]

/-- C2 witness: the amended theorem on an empty decorator over a backend
that rejects the write with error `0`. -/
theorem lru_put_object_cache_before_backend_witness :
    Lru.put_object (⟨[], [], 1, ()⟩ : LruState Unit) "k" 5 natSer
        (fun _ _ _ => (.error 0 : Except Nat Unit)) =
      (.error (.sink 0), Lru.put_bytes_inner ⟨[], [], 1, ()⟩ "k" [5])
    ∧ Lru.exists_inner
        (Lru.put_bytes_inner (⟨[], [], 1, ()⟩ : LruState Unit) "k" [5]) "k" = true
    ∧ (Lru.put_bytes_inner (⟨[], [], 1, ()⟩ : LruState Unit) "k" [5]).cache =
        lruPut [] 1 "k" [5] :=
  lru_put_object_cache_before_backend ⟨[], [], 1, ()⟩ "k" 5 [5] 0 natSer
    (fun _ _ _ => .error 0) rfl rfl

/-- C2 counterexample: on an empty decorator whose backend write fails,
`put_object` returns the backend error, yet the existence index has
grown from `[]` to `["k"]` and the bounded cache now holds the entry —
the state is not as it was before the call. -/
theorem lru_put_object_backend_error_mutates_cex :
    (Lru.put_object (⟨[], [], 1, ()⟩ : LruState Unit) "k" 5 natSer
        (fun _ _ _ => (.error 0 : Except Nat Unit))).1 = .error (.sink 0)
    ∧ (Lru.put_object (⟨[], [], 1, ()⟩ : LruState Unit) "k" 5 natSer
        (fun _ _ _ => (.error 0 : Except Nat Unit))).2.existsIndex = ["k"]
    ∧ (⟨[], [], 1, ()⟩ : LruState Unit).existsIndex = []
    ∧ (Lru.put_object (⟨[], [], 1, ()⟩ : LruState Unit) "k" 5 natSer
        (fun _ _ _ => (.error 0 : Except Nat Unit))).2.cache = [("k", [5])] :=
  ⟨rfl, rfl, rfl, rfl⟩

/-- C1: evaluation of `get_object` at the eviction scenario.  After two
successful writes on the capacity-one decorator, the first key is still
in the existence index and still held by the wrapped sink, yet
`get_object` answers `Ok(None)` from the exists-hit branch without
consulting the backend — no eviction healing happens in
`cache/lru.rs::get_object`. -/
theorem lru_get_object_after_eviction_returns_none :
    (Lru.get_object evictScenario "k1" natDeser natSerOpt
        (memBget natDeser) memBput).1 = .ok none
    ∧ Lru.exists_inner evictScenario "k1" = true
    ∧ memBget natDeser evictScenario.storage "k1" = .ok (some 7)
    ∧ evictScenario.cache = [("k2", [8])] :=
  ⟨rfl, rfl, rfl, rfl⟩

/-- C3: evaluation of `get_object` at a key absent from both the index
and the backend.  The call returns `Ok(None)` but passes the whole
`Option` (here `None`) to `put_object`, so the serialized `null` payload
is inserted into the bounded cache and written through to the backend,
and the key is marked in the existence index — a subsequent `exists`
answers `true`. -/
theorem lru_get_object_absent_writes_null :
    Lru.get_object lru0 "k" natDeser natSerOpt (memBget natDeser) memBput =
      (.ok none,
        ⟨["k"], [("k", [110, 117, 108, 108])], 1, [("k", [110, 117, 108, 108])]⟩)
    ∧ Lru.exists_inner
        (Lru.get_object lru0 "k" natDeser natSerOpt
          (memBget natDeser) memBput).2 "k" = true :=
  ⟨rfl, rfl⟩

theorem isDig_digitChar (d : Nat) (h : d < 10) : isDig (Nat.digitChar d) = true := by
  interval_cases d <;> decide

theorem digVal_digitChar (d : Nat) (h : d < 10) : digVal (Nat.digitChar d) = d := by
  interval_cases d <;> decide

theorem hexVal_digitChar (d : Nat) (h : d < 16) : hexVal (Nat.digitChar d) = some d := by
  interval_cases d <;> decide

theorem isDig_bounds {c : Char} (h : isDig c = true) : 48 ≤ c.toNat ∧ c.toNat ≤ 57 := by
  simpa [isDig] using h

theorem not_ws_of_isDig {c : Char} (h : isDig c = true) : isWs c = false := by
  have hb := isDig_bounds h
  simp only [isWs, Bool.or_eq_false_iff, beq_eq_false_iff_ne]
  refine ⟨⟨⟨?_, ?_⟩, ?_⟩, ?_⟩ <;>
    · intro he
      subst he
      exact absurd hb (by decide)

theorem skipWs_cons_not_ws {c : Char} {cs : List Char} (h : isWs c = false) :
    skipWs (c :: cs) = c :: cs := by
  simp [skipWs, h]

theorem skipWs_of_head {l : List Char}
    (h : ∀ c, l.head? = some c → isWs c = false) : skipWs l = l := by
  cases l with
  | nil => rfl
  | cons c cs => exact skipWs_cons_not_ws (h c rfl)

theorem takeWhile_append_all {p : Char → Bool} {a b : List Char}
    (h : ∀ x ∈ a, p x = true) : (a ++ b).takeWhile p = a ++ b.takeWhile p := by
  induction a with
  | nil => simp
  | cons x xs ih =>
    rw [List.cons_append, List.takeWhile_cons, h x (by simp), List.cons_append,
      ih (fun y hy => h y (by simp [hy]))]
    simp

theorem dropWhile_append_all {p : Char → Bool} {a b : List Char}
    (h : ∀ x ∈ a, p x = true) : (a ++ b).dropWhile p = b.dropWhile p := by
  induction a with
  | nil => simp
  | cons x xs ih =>
    rw [List.cons_append, List.dropWhile_cons, if_pos (by rw [h x (by simp)]),
      ih (fun y hy => h y (by simp [hy]))]

theorem takeWhile_eq_nil_of_head {p : Char → Bool} {b : List Char}
    (h : ∀ c, b.head? = some c → p c = false) : b.takeWhile p = [] := by
  cases b with
  | nil => rfl
  | cons c cs =>
    rw [List.takeWhile_cons, h c rfl]
    simp

theorem dropWhile_eq_self_of_head {p : Char → Bool} {b : List Char}
    (h : ∀ c, b.head? = some c → p c = false) : b.dropWhile p = b := by
  cases b with
  | nil => rfl
  | cons c cs => rw [List.dropWhile_cons, if_neg (by rw [h c rfl]; simp)]

theorem printNat_ne_nil (n : Nat) : printNat n ≠ [] := by
  unfold printNat
  by_cases h : n = 0
  · simp [h]
  · rw [if_neg h]
    simp [Nat.digits_ne_nil_iff_ne_zero.mpr h]

theorem printNat_all_digits (n : Nat) : ∀ c ∈ printNat n, isDig c = true := by
  unfold printNat
  by_cases h : n = 0
  · simp [h]
    decide
  · rw [if_neg h]
    intro c hc
    rw [List.mem_map] at hc
    obtain ⟨d, hd, hdc⟩ := hc
    rw [List.mem_reverse] at hd
    rw [← hdc]
    exact isDig_digitChar d (Nat.digits_lt_base (by norm_num) hd)

theorem foldr_ofDigits (L : List Nat) (h : ∀ d ∈ L, d < 10) :
    L.foldr (fun d a => 10 * a + digVal (Nat.digitChar d)) 0 = Nat.ofDigits 10 L := by
  induction L with
  | nil => simp [Nat.ofDigits_nil]
  | cons d ds ih =>
    rw [List.foldr_cons, ih (fun x hx => h x (by simp [hx])),
      digVal_digitChar d (h d (by simp)), Nat.ofDigits_cons]
    omega

theorem printNat_foldl (n : Nat) :
    (printNat n).foldl (fun a c => 10 * a + digVal c) 0 = n := by
  by_cases h : n = 0
  · subst h; decide
  · unfold printNat
    rw [if_neg h, List.foldl_map, List.foldl_reverse]
    have := foldr_ofDigits (Nat.digits 10 n)
      (fun d hd => Nat.digits_lt_base (by norm_num) hd)
    calc (Nat.digits 10 n).foldr (fun x y => 10 * y + digVal (Nat.digitChar x)) 0
        = Nat.ofDigits 10 (Nat.digits 10 n) := this
      _ = n := by exact_mod_cast Nat.ofDigits_digits 10 n

theorem parseNumFrom_print (n : Nat) (rest : List Char) (hrest : tailOk rest) :
    parseNumFrom (printNat n ++ rest) = some (n, rest) := by
  unfold parseNumFrom tailOk at *
  rw [takeWhile_append_all (printNat_all_digits n), takeWhile_eq_nil_of_head hrest,
    List.append_nil, dropWhile_append_all (printNat_all_digits n),
    dropWhile_eq_self_of_head hrest]
  rw [if_neg (by simp [printNat_ne_nil n])]
  rw [printNat_foldl]

theorem parseStrBody_esc (s rest : List Char) :
    parseStrBody (escStr s ++ '"' :: rest) = some (s, rest) := by
  induction s with
  | nil =>
    show parseStrBody ('"' :: rest) = some ([], rest)
    rw [parseStrBody.eq_def]
    simp
  | cons c cs ih =>
    show parseStrBody ((escChar c ++ escStr cs) ++ '"' :: rest) = some (c :: cs, rest)
    rw [List.append_assoc]
    unfold escChar
    by_cases h1 : c = '"'
    · subst h1
      rw [if_pos rfl]
      simp [parseStrBody, escDecode, ih]
    rw [if_neg h1]
    by_cases h2 : c = '\\'
    · subst h2
      rw [if_pos rfl]
      simp [parseStrBody, escDecode, ih]
    rw [if_neg h2]
    by_cases h3 : c = '\n'
    · subst h3
      rw [if_pos rfl]
      simp [parseStrBody, escDecode, ih]
    rw [if_neg h3]
    by_cases h4 : c = '\r'
    · subst h4
      rw [if_pos rfl]
      simp [parseStrBody, escDecode, ih]
    rw [if_neg h4]
    by_cases h5 : c = '\t'
    · subst h5
      rw [if_pos rfl]
      simp [parseStrBody, escDecode, ih]
    rw [if_neg h5]
    by_cases h6 : c = '\x08'
    · subst h6
      rw [if_pos rfl]
      simp [parseStrBody, escDecode, ih]
    rw [if_neg h6]
    by_cases h7 : c = '\x0c'
    · subst h7
      rw [if_pos rfl]
      simp [parseStrBody, escDecode, ih]
    rw [if_neg h7]
    by_cases h8 : c.toNat < 32
    · rw [if_pos h8]
      show parseStrBody ('\\' :: 'u' :: '0' :: '0' ::
          Nat.digitChar (c.toNat / 16) :: Nat.digitChar (c.toNat % 16) ::
          (escStr cs ++ '"' :: rest)) = some (c :: cs, rest)
      rw [parseStrBody.eq_def]
      simp only [if_neg (by decide : ¬('\\' : Char) = '"'), if_pos rfl]
      rw [show hexVal '0' = some 0 by decide,
        hexVal_digitChar (c.toNat / 16) (by omega),
        hexVal_digitChar (c.toNat % 16) (by omega)]
      dsimp only
      rw [if_pos (by omega : ((0 * 16 + 0) * 16 + c.toNat / 16) * 16 + c.toNat % 16 < 55296)]
      have hcode : ((0 * 16 + 0) * 16 + c.toNat / 16) * 16 + c.toNat % 16 = c.toNat := by
        omega
      rw [hcode, Char.ofNat_toNat, ih]
      rfl
    · rw [if_neg h8]
      show parseStrBody (c :: (escStr cs ++ '"' :: rest)) = some (c :: cs, rest)
      rw [parseStrBody.eq_def]
      simp [h1, h2, ih]

theorem isDig_ne {c : Char} (h : isDig c = true) {d : Char}
    (hd : d.toNat < 48 ∨ 57 < d.toNat) : c ≠ d := by
  intro he
  subst he
  have := isDig_bounds h
  omega

theorem parseVal_succ (f : Nat) (s : List Char) :
    parseVal (f + 1) s =
      match skipWs s with
      | [] => none
      | c :: r =>
        if isDig c then
          (parseNumFrom (c :: r)).map (fun p => (Jv.num (p.1 : Int), p.2))
        else if c = '-' then
          (parseNumFrom r).map (fun p => (Jv.num (-(p.1 : Int)), p.2))
        else if c = '"' then
          (parseStrBody r).map (fun p => (Jv.str p.1, p.2))
        else if c = '[' then
          if (skipWs r).head? = some ']' then some (.arr [], (skipWs r).tail)
          else (parseElems f (skipWs r)).map (fun p => (Jv.arr p.1, p.2))
        else if c = '{' then
          if (skipWs r).head? = some '}' then some (.obj [], (skipWs r).tail)
          else (parseMembers f (skipWs r)).map (fun p => (Jv.obj p.1, p.2))
        else if c = 'n' then
          match r with
          | 'u' :: 'l' :: 'l' :: r2 => some (.null, r2)
          | _ => none
        else if c = 't' then
          match r with
          | 'r' :: 'u' :: 'e' :: r2 => some (.bool true, r2)
          | _ => none
        else if c = 'f' then
          match r with
          | 'a' :: 'l' :: 's' :: 'e' :: r2 => some (.bool false, r2)
          | _ => none
        else none := rfl

theorem parseElems_succ (f : Nat) (s : List Char) :
    parseElems (f + 1) s =
      (do
      let (v, r) ← parseVal f s
      let r1 := skipWs r
      if r1.head? = some ']' then some ([v], r1.tail)
      else if r1.head? = some ',' then do
        let (vs, r2) ← parseElems f r1.tail
        some (v :: vs, r2)
      else none) := rfl

theorem parseMembers_succ (f : Nat) (s : List Char) :
    parseMembers (f + 1) s =
      (let s1 := skipWs s
      if s1.head? = some '"' then do
        let (k, r) ← parseStrBody s1.tail
        let r1 := skipWs r
        if r1.head? = some ':' then do
          let (v, r2) ← parseVal f r1.tail
          let r3 := skipWs r2
          if r3.head? = some '}' then some ([(k, v)], r3.tail)
          else if r3.head? = some ',' then do
            let (fs, r4) ← parseMembers f r3.tail
            some ((k, v) :: fs, r4)
          else none
        else none
      else none) := rfl

theorem parseVal_not_ws (f : Nat) (c : Char) (r : List Char) (h : isWs c = false) :
    parseVal (f + 1) (c :: r) =
      (if isDig c then
        (parseNumFrom (c :: r)).map (fun p => (Jv.num (p.1 : Int), p.2))
      else if c = '-' then
        (parseNumFrom r).map (fun p => (Jv.num (-(p.1 : Int)), p.2))
      else if c = '"' then
        (parseStrBody r).map (fun p => (Jv.str p.1, p.2))
      else if c = '[' then
        if (skipWs r).head? = some ']' then some (.arr [], (skipWs r).tail)
        else (parseElems f (skipWs r)).map (fun p => (Jv.arr p.1, p.2))
      else if c = '{' then
        if (skipWs r).head? = some '}' then some (.obj [], (skipWs r).tail)
        else (parseMembers f (skipWs r)).map (fun p => (Jv.obj p.1, p.2))
      else if c = 'n' then
        match r with
        | 'u' :: 'l' :: 'l' :: r2 => some (.null, r2)
        | _ => none
      else if c = 't' then
        match r with
        | 'r' :: 'u' :: 'e' :: r2 => some (.bool true, r2)
        | _ => none
      else if c = 'f' then
        match r with
        | 'a' :: 'l' :: 's' :: 'e' :: r2 => some (.bool false, r2)
        | _ => none
      else none) := by
  rw [parseVal_succ, skipWs_cons_not_ws h]

theorem parseVal_print_num (f : Nat) (n : Int) (rest : List Char) (hrest : tailOk rest) :
    parseVal (f + 1) (printInt n ++ rest) = some (.num n, rest) := by
  unfold printInt
  by_cases hneg : n < 0
  · rw [if_pos hneg, List.cons_append, parseVal_not_ws f '-' _ (by decide)]
    rw [if_neg (by decide : ¬isDig '-' = true), if_pos rfl,
      parseNumFrom_print n.natAbs rest hrest]
    simp only [Option.map_some']
    rw [show (-(n.natAbs : Int)) = n by omega]
  · rw [if_neg hneg]
    obtain ⟨d, t, hdt⟩ := List.exists_cons_of_ne_nil (printNat_ne_nil n.toNat)
    have hd : isDig d = true := by
      have hall := printNat_all_digits n.toNat
      rw [hdt] at hall
      exact hall d (by simp)
    rw [hdt, List.cons_append, parseVal_not_ws f d _ (not_ws_of_isDig hd)]
    rw [if_pos hd,
      show d :: (t ++ rest) = (d :: t) ++ rest from rfl, ← hdt,
      parseNumFrom_print n.toNat rest hrest]
    simp only [Option.map_some']
    rw [show ((n.toNat : Int)) = n by omega]

theorem printJv_head (v : Jv) :
    ∃ c t, printJv v = c :: t ∧ isWs c = false ∧
      c ≠ ']' ∧ c ≠ '}' ∧ c ≠ ',' := by
  cases v with
  | null => exact ⟨'n', _, rfl, by decide, by decide, by decide, by decide⟩
  | bool b =>
    cases b with
    | true => exact ⟨'t', _, rfl, by decide, by decide, by decide, by decide⟩
    | false => exact ⟨'f', _, rfl, by decide, by decide, by decide, by decide⟩
  | num n =>
    show ∃ c t, printInt n = c :: t ∧ _
    unfold printInt
    by_cases hneg : n < 0
    · rw [if_pos hneg]
      exact ⟨'-', _, rfl, by decide, by decide, by decide, by decide⟩
    · rw [if_neg hneg]
      obtain ⟨d, t, hdt⟩ := List.exists_cons_of_ne_nil (printNat_ne_nil n.toNat)
      have hd : isDig d = true := by
        have hall := printNat_all_digits n.toNat
        rw [hdt] at hall
        exact hall d (by simp)
      exact ⟨d, t, hdt, not_ws_of_isDig hd, isDig_ne hd (by decide),
        isDig_ne hd (by decide), isDig_ne hd (by decide)⟩
  | str s => exact ⟨'"', _, rfl, by decide, by decide, by decide, by decide⟩
  | arr xs => exact ⟨'[', _, rfl, by decide, by decide, by decide, by decide⟩
  | obj fs => exact ⟨'{', _, rfl, by decide, by decide, by decide, by decide⟩

theorem needJv_pos (v : Jv) : 1 ≤ needJv v := by
  cases v <;> simp [needJv]

theorem needElems_pos {xs : List Jv} (h : xs ≠ []) : 1 ≤ needElems xs := by
  cases xs with
  | nil => exact absurd rfl h
  | cons v vs => simp [needElems]

theorem needMembers_pos {fs : List (List Char × Jv)} (h : fs ≠ []) :
    1 ≤ needMembers fs := by
  cases fs with
  | nil => exact absurd rfl h
  | cons kv fs' => obtain ⟨k, v⟩ := kv; simp [needMembers]

mutual

theorem needJv_le : ∀ v : Jv, needJv v ≤ (printJv v).length
  | .null => by simp [needJv, printJv]
  | .bool b => by cases b <;> simp [needJv, printJv]
  | .num n => by
    have h := printNat_ne_nil
    simp only [needJv, printJv]
    have : printInt n ≠ [] := by
      unfold printInt
      by_cases hneg : n < 0
      · rw [if_pos hneg]; simp
      · rw [if_neg hneg]; exact printNat_ne_nil n.toNat
    have := List.length_pos.mpr this
    omega
  | .str s => by simp [needJv, printJv]
  | .arr xs => by
    have h := needElems_le xs
    simp only [needJv, printJv, List.length_cons, List.length_append,
      List.length_singleton]
    omega
  | .obj fs => by
    have h := needMembers_le fs
    simp only [needJv, printJv, List.length_cons, List.length_append,
      List.length_singleton]
    omega

theorem needElems_le : ∀ xs : List Jv, needElems xs ≤ 1 + (printElems xs).length
  | [] => by simp [needElems]
  | [v] => by
    have h := needJv_le v
    show 1 + max (needJv v) 0 ≤ 1 + (printJv v).length
    omega
  | v :: w :: vs => by
    have h1 := needJv_le v
    have h2 := needElems_le (w :: vs)
    show 1 + max (needJv v) (needElems (w :: vs)) ≤
      1 + (printJv v ++ ',' :: printElems (w :: vs)).length
    rw [List.length_append, List.length_cons]
    omega

theorem needMembers_le : ∀ fs : List (List Char × Jv),
    needMembers fs ≤ 1 + (printMembers fs).length
  | [] => by simp [needMembers]
  | [(k, v)] => by
    have h := needJv_le v
    show 1 + max (needJv v) 0 ≤
      1 + ('"' :: (escStr k ++ '"' :: ':' :: printJv v)).length
    rw [List.length_cons, List.length_append, List.length_cons, List.length_cons]
    omega
  | (k, v) :: kv :: fs' => by
    have h1 := needJv_le v
    have h2 := needMembers_le (kv :: fs')
    show 1 + max (needJv v) (needMembers (kv :: fs')) ≤
      1 + (('"' :: (escStr k ++ '"' :: ':' :: printJv v)) ++
        ',' :: printMembers (kv :: fs')).length
    rw [List.length_append, List.length_cons, List.length_cons,
      List.length_append, List.length_cons, List.length_cons]
    omega

end

theorem parse_print (f : Nat) :
    (∀ (v : Jv) (rest : List Char), needJv v ≤ f → tailOk rest →
      parseVal f (printJv v ++ rest) = some (v, rest))
    ∧ (∀ (xs : List Jv) (rest : List Char), xs ≠ [] → needElems xs ≤ f →
      parseElems f (printElems xs ++ ']' :: rest) = some (xs, rest))
    ∧ (∀ (fs : List (List Char × Jv)) (rest : List Char), fs ≠ [] →
      needMembers fs ≤ f →
      parseMembers f (printMembers fs ++ '}' :: rest) = some (fs, rest)) := by
  induction f with
  | zero =>
    refine ⟨?_, ?_, ?_⟩
    · intro v rest hneed _
      exact absurd hneed (by have := needJv_pos v; omega)
    · intro xs rest hne hneed
      exact absurd hneed (by have := needElems_pos hne; omega)
    · intro fs rest hne hneed
      exact absurd hneed (by have := needMembers_pos hne; omega)
  | succ f ih =>
    obtain ⟨ihV, ihE, ihM⟩ := ih
    refine ⟨?_, ?_, ?_⟩
    · intro v rest hneed hrest
      cases v with
      | null => rfl
      | bool b => cases b <;> rfl
      | num n => exact parseVal_print_num f n rest hrest
      | str s =>
        show parseVal (f + 1) (('"' :: (escStr s ++ ['"'])) ++ rest) =
          some (.str s, rest)
        rw [List.cons_append, List.append_assoc]
        rw [parseVal_not_ws f '"' _ (by decide)]
        rw [if_neg (by decide), if_neg (by decide), if_pos rfl]
        show (parseStrBody (escStr s ++ '"' :: rest)).map
          (fun p => (Jv.str p.1, p.2)) = some (.str s, rest)
        rw [parseStrBody_esc s rest]
        rfl
      | arr xs =>
        show parseVal (f + 1) (('[' :: (printElems xs ++ [']'])) ++ rest) =
          some (.arr xs, rest)
        rw [List.cons_append, List.append_assoc]
        show parseVal (f + 1) ('[' :: (printElems xs ++ (']' :: rest))) = _
        rw [parseVal_not_ws f '[' _ (by decide)]
        rw [if_neg (by decide), if_neg (by decide), if_neg (by decide), if_pos rfl]
        cases xs with
        | nil =>
          rw [show printElems ([] : List Jv) ++ (']' :: rest) = ']' :: rest from rfl]
          rw [skipWs_cons_not_ws (by decide)]
          rfl
        | cons x xs2 =>
          obtain ⟨c0, t0, hct, hws0, hne1, _, _⟩ := printJv_head x
          have hneedE : needElems (x :: xs2) ≤ f := by
            have : needJv (Jv.arr (x :: xs2)) = 1 + needElems (x :: xs2) := rfl
            omega
          obtain ⟨t1, ht1⟩ : ∃ t1, printElems (x :: xs2) = printJv x ++ t1 := by
            cases xs2 with
            | nil => exact ⟨[], (List.append_nil _).symm⟩
            | cons w vs => exact ⟨',' :: printElems (w :: vs), rfl⟩
          have harg : printElems (x :: xs2) ++ (']' :: rest) =
              c0 :: (t0 ++ (t1 ++ (']' :: rest))) := by
            rw [ht1, hct]
            simp [List.append_assoc]
          rw [harg, skipWs_cons_not_ws hws0]
          rw [if_neg (by simp only [List.head?_cons, Option.some.injEq]; exact hne1)]
          rw [← harg]
          rw [ihE (x :: xs2) rest (by simp) hneedE]
          rfl
      | obj fs =>
        show parseVal (f + 1) (('{' :: (printMembers fs ++ ['}'])) ++ rest) =
          some (.obj fs, rest)
        rw [List.cons_append, List.append_assoc]
        show parseVal (f + 1) ('{' :: (printMembers fs ++ ('}' :: rest))) = _
        rw [parseVal_not_ws f '{' _ (by decide)]
        rw [if_neg (by decide), if_neg (by decide), if_neg (by decide),
          if_neg (by decide), if_pos rfl]
        cases fs with
        | nil =>
          rw [show printMembers ([] : List (List Char × Jv)) ++ ('}' :: rest) =
            '}' :: rest from rfl]
          rw [skipWs_cons_not_ws (by decide)]
          rfl
        | cons kv fs2 =>
          obtain ⟨k, v⟩ := kv
          have hneedM : needMembers ((k, v) :: fs2) ≤ f := by
            have : needJv (Jv.obj ((k, v) :: fs2)) =
              1 + needMembers ((k, v) :: fs2) := rfl
            omega
          obtain ⟨t1, ht1⟩ : ∃ t1, printMembers ((k, v) :: fs2) = '"' :: t1 := by
            cases fs2 with
            | nil => exact ⟨_, rfl⟩
            | cons kv2 fs3 => exact ⟨_, rfl⟩
          have harg : printMembers ((k, v) :: fs2) ++ ('}' :: rest) =
              '"' :: (t1 ++ ('}' :: rest)) := by
            rw [ht1]
            rfl
          rw [harg, skipWs_cons_not_ws (by decide)]
          simp only [List.head?_cons, Option.some.injEq]
          rw [if_neg (by decide)]
          rw [← harg]
          rw [ihM ((k, v) :: fs2) rest (by simp) hneedM]
          rfl
    · intro xs rest hne hneed
      cases xs with
      | nil => exact absurd rfl hne
      | cons v vs =>
        have hneedv : needJv v ≤ f := by
          have : needElems (v :: vs) = 1 + max (needJv v) (needElems vs) := rfl
          omega
        have hneedvs : needElems vs ≤ f := by
          have : needElems (v :: vs) = 1 + max (needJv v) (needElems vs) := rfl
          omega
        rw [parseElems_succ]
        cases vs with
        | nil =>
          rw [show printElems [v] ++ ']' :: rest = printJv v ++ ']' :: rest from rfl]
          rw [ihV v (']' :: rest) hneedv
            (fun c hc => by simp at hc; subst hc; decide)]
          simp only [Option.bind_eq_bind, Option.some_bind]
          rw [skipWs_cons_not_ws (by decide)]
          rfl
        | cons w vs2 =>
          have harg : printElems (v :: w :: vs2) ++ ']' :: rest =
              printJv v ++ (',' :: (printElems (w :: vs2) ++ ']' :: rest)) := by
            show (printJv v ++ ',' :: printElems (w :: vs2)) ++ ']' :: rest = _
            rw [List.append_assoc]
            rfl
          rw [harg]
          rw [ihV v _ hneedv (fun c hc => by simp at hc; subst hc; decide)]
          simp only [Option.bind_eq_bind, Option.some_bind]
          rw [skipWs_cons_not_ws (by decide)]
          simp only [List.head?_cons, Option.some.injEq]
          rw [if_pos trivial]
          rw [show (',' :: (printElems (w :: vs2) ++ ']' :: rest)).tail =
            printElems (w :: vs2) ++ ']' :: rest from rfl]
          rw [ihE (w :: vs2) rest (by simp) hneedvs]
          rfl
    · intro fs rest hne hneed
      cases fs with
      | nil => exact absurd rfl hne
      | cons kv fs2 =>
        obtain ⟨k, v⟩ := kv
        have hneedv : needJv v ≤ f := by
          have : needMembers ((k, v) :: fs2) =
            1 + max (needJv v) (needMembers fs2) := rfl
          omega
        have hneedfs : needMembers fs2 ≤ f := by
          have : needMembers ((k, v) :: fs2) =
            1 + max (needJv v) (needMembers fs2) := rfl
          omega
        rw [parseMembers_succ]
        cases fs2 with
        | nil =>
          have harg : printMembers [(k, v)] ++ '}' :: rest =
              '"' :: (escStr k ++ ('"' :: (':' :: (printJv v ++ '}' :: rest)))) := by
            show ('"' :: (escStr k ++ '"' :: ':' :: printJv v)) ++ '}' :: rest = _
            rw [List.cons_append, List.append_assoc]
            rfl
          rw [harg]
          rw [skipWs_cons_not_ws (by decide)]
          simp only [List.head?_cons, Option.some.injEq]
          rw [if_pos trivial]
          rw [show ('"' :: (escStr k ++ ('"' :: (':' :: (printJv v ++ '}' :: rest))))).tail
            = escStr k ++ ('"' :: (':' :: (printJv v ++ '}' :: rest))) from rfl]
          rw [parseStrBody_esc k (':' :: (printJv v ++ '}' :: rest))]
          simp only [Option.bind_eq_bind, Option.some_bind]
          rw [skipWs_cons_not_ws (by decide)]
          simp only [List.head?_cons, Option.some.injEq]
          rw [if_pos trivial]
          rw [show (':' :: (printJv v ++ '}' :: rest)).tail =
            printJv v ++ '}' :: rest from rfl]
          rw [ihV v ('}' :: rest) hneedv
            (fun c hc => by simp at hc; subst hc; decide)]
          simp only [Option.bind_eq_bind, Option.some_bind]
          rw [skipWs_cons_not_ws (by decide)]
          simp only [List.head?_cons, Option.some.injEq]
          rw [if_pos trivial]
          rfl
        | cons kv2 fs3 =>
          have harg : printMembers ((k, v) :: kv2 :: fs3) ++ '}' :: rest =
              '"' :: (escStr k ++ ('"' :: (':' :: (printJv v ++
                (',' :: (printMembers (kv2 :: fs3) ++ '}' :: rest)))))) := by
            show (('"' :: (escStr k ++ '"' :: ':' :: printJv v)) ++
              ',' :: printMembers (kv2 :: fs3)) ++ '}' :: rest = _
            rw [List.append_assoc, List.cons_append, List.append_assoc]
            simp [List.append_assoc]
          rw [harg]
          rw [skipWs_cons_not_ws (by decide)]
          simp only [List.head?_cons, Option.some.injEq]
          rw [if_pos trivial]
          rw [show ('"' :: (escStr k ++ ('"' :: (':' :: (printJv v ++
              (',' :: (printMembers (kv2 :: fs3) ++ '}' :: rest))))))).tail =
            escStr k ++ ('"' :: (':' :: (printJv v ++
              (',' :: (printMembers (kv2 :: fs3) ++ '}' :: rest))))) from rfl]
          rw [parseStrBody_esc k _]
          simp only [Option.bind_eq_bind, Option.some_bind]
          rw [skipWs_cons_not_ws (by decide)]
          simp only [List.head?_cons, Option.some.injEq]
          rw [if_pos trivial]
          rw [show (':' :: (printJv v ++ (',' :: (printMembers (kv2 :: fs3) ++
              '}' :: rest)))).tail = printJv v ++
              (',' :: (printMembers (kv2 :: fs3) ++ '}' :: rest)) from rfl]
          rw [ihV v _ hneedv (fun c hc => by simp at hc; subst hc; decide)]
          simp only [Option.bind_eq_bind, Option.some_bind]
          rw [skipWs_cons_not_ws (by decide)]
          simp only [List.head?_cons, Option.some.injEq]
          rw [if_pos trivial]
          rw [show (',' :: (printMembers (kv2 :: fs3) ++ '}' :: rest)).tail =
            printMembers (kv2 :: fs3) ++ '}' :: rest from rfl]
          rw [ihM (kv2 :: fs3) rest (by simp) hneedfs]
          rfl

/-- C9: the JSON parser round-trip.  For every JSON value tree,
serializing with the compact printer and deserializing with the reader
succeeds and returns the identical value: `deserialize_value` after
`serialize_value` is the identity, covering nested arrays and objects,
signed integers, and strings with every escape form the printer emits. -/
theorem json_parser_round_trip :
    ∀ v : Jv, (serialize_value v).bind deserialize_value = .ok v := by
  intro v
  show deserialize_value (printJv v) = .ok v
  unfold deserialize_value jsonDeserialize
  have hb := needJv_le v
  have hmain := (parse_print ((printJv v).length + 1)).1 v []
    (by omega) (fun c hc => by simp at hc)
  rw [List.append_nil] at hmain
  rw [hmain]
  rfl
